import Mathlib

/-!
# Verification of chebpy's partition utilities and piecewise composition layer

A shallow embedding of `chebpy/core/utilities.py` and `chebpy/core/chebfun.py`.
Real numbers are modelled by `ℚ` (the claims under study are about exact
comparisons of breakpoints and function values, which the spec states are
deliberately exact, never approximate).  Fallible constructors return
`Except ChebError _`, mirroring the Python exceptions raised at construction
time.  The single-interval representation class (`Bndfun` in the source tree)
is not part of the sources under study; pieces are therefore modelled
abstractly as an interval together with the function values the piece
represents, and the per-piece operations that the piecewise algorithms consume
(`cumsum`, `roots`) are taken as parameters or data.
-/

namespace Chebpy

/-- The exception types raised by the embedded code
(`chebpy/core/exceptions.py` names; `typeError` stands for Python's built-in
`TypeError`). -/
inductive ChebError where
  | intervalValues
  | invalidDomain
  | intervalOverlap
  | intervalGap
  | supportMismatch
  | badDomainArgument
  | badFunLengthArgument
  | typeError
  | stopIteration
  deriving DecidableEq, Repr

/-- `Interval` (utilities.py): the pair of values stored by a successfully
constructed `Interval(a, b)` object. -/
structure Interval where
  a : ℚ
  b : ℚ
  deriving DecidableEq, Repr

/-- `Interval.__init__`: raises `IntervalValues` when `a >= b`, otherwise
stores the two values. -/
def Interval.make (a b : ℚ) : Except ChebError Interval :=
  if a ≥ b then .error .intervalValues else .ok ⟨a, b⟩

/-- `Interval.isinterior(x)`: `logical_and(a < x, x < b)`. -/
def Interval.isinterior (i : Interval) (x : ℚ) : Bool :=
  decide (i.a < x) && decide (x < i.b)

/-- `Interval.__contains__(other)`: `(a <= x) & (y <= b)` where `[x, y]` are
the other interval's values. -/
def Interval.containsIntvl (i other : Interval) : Bool :=
  decide (i.a ≤ other.a) && decide (other.b ≤ i.b)

/-- `Domain` (utilities.py): the breakpoint sequence stored by a successfully
constructed `Domain` object. -/
structure Domain where
  breakpoints : List ℚ
  deriving DecidableEq, Repr

/-- `Domain.__init__`: raises `InvalidDomain` when fewer than two breakpoints
are supplied or when any consecutive difference is `<= 0`. -/
def Domain.make (bs : List ℚ) : Except ChebError Domain :=
  if bs.length < 2 then .error .invalidDomain
  else if (List.zipWith (fun x y => y - x) bs bs.tail).any (fun d => decide (d ≤ 0)) then
    .error .invalidDomain
  else .ok ⟨bs⟩

/-- A `Domain`'s stored breakpoints are valid: at least two of them, strictly
increasing.  This is exactly the invariant `Domain.__init__` enforces. -/
def Domain.Valid (d : Domain) : Prop :=
  2 ≤ d.breakpoints.length ∧ d.breakpoints.Chain' (· < ·)

/-- `Domain.support`: the first and last breakpoints (`breakpoints[[0, -1]]`).
Defaults never fire on a valid (hence nonempty) breakpoint list. -/
def Domain.support (d : Domain) : ℚ × ℚ :=
  (d.breakpoints.headD 0, d.breakpoints.getLastD 0)

/-- Sorted-unique insertion into an ascending list: the building block used to
model `numpy.unique` (which returns the sorted distinct values). -/
def insertUnique (x : ℚ) : List ℚ → List ℚ
  | [] => [x]
  | y :: ys =>
    if x < y then x :: y :: ys
    else if x = y then y :: ys
    else y :: insertUnique x ys

/-- `numpy.unique`: the sorted list of distinct values of the input. -/
def sortedDedup (xs : List ℚ) : List ℚ :=
  xs.foldr insertUnique []

/-- `Domain.merge(other)`: appends the two breakpoint sequences, takes
`numpy.unique`, and feeds the result to the `Domain` constructor (which
re-validates). -/
def Domain.merge (d other : Domain) : Except ChebError Domain :=
  Domain.make (sortedDedup (d.breakpoints ++ other.breakpoints))

/-- `Domain.union(other)`: raises `SupportMismatch` when the supports differ
in either component, otherwise delegates to `merge`. -/
def Domain.union (d other : Domain) : Except ChebError Domain :=
  if d.support ≠ other.support then .error .supportMismatch
  else d.merge other

/-- `Domain.breakpoints_in(other)` reduced to a single query (`numpy.in1d`
componentwise): membership of a breakpoint in the other's breakpoints. -/
def Domain.beq (d other : Domain) : Bool :=
  d.breakpoints.all (fun x => decide (x ∈ other.breakpoints)) &&
    other.breakpoints.all (fun x => decide (x ∈ d.breakpoints))

/-- `Bndfun` (bndfun.py; that module is not among the sources under study):
one piece of a piecewise function, modelled by its `Interval` together with
the function it represents there.  `utilities.py` and `chebfun.py` consume a
piece only through `fun.interval`, `fun.endpoints`, `fun.endvalues` and
`fun(x)`, all recovered below. -/
structure Bndfun where
  interval : Interval
  f : ℚ → ℚ

/-- `Bndfun.endpoints`: the piece's physical endpoints `(a, b)` (the images
of ∓1 under the interval's forward map). -/
def Bndfun.endpoints (g : Bndfun) : ℚ × ℚ :=
  (g.interval.a, g.interval.b)

/-- `Bndfun.endvalues`: the function values at the two endpoints. -/
def Bndfun.endvalues (g : Bndfun) : ℚ × ℚ :=
  (g.f g.interval.a, g.f g.interval.b)

/-- Stable insertion of a piece into a list ordered by left interval
endpoint. -/
def insertByLeft (g : Bndfun) : List Bndfun → List Bndfun
  | [] => [g]
  | h :: t => if g.interval.a < h.interval.a then g :: h :: t else h :: insertByLeft g t

/-- `_sortindex`'s sort applied to the pieces themselves: `funs[idx]` where
`idx = argsort(left endpoints)`. -/
def sortByLeft : List Bndfun → List Bndfun
  | [] => []
  | g :: t => insertByLeft g (sortByLeft t)

/-- `_sortindex`'s junction discrepancies: for the sorted pieces,
`d = x[1::2] - x[::2]` where `x = srt.flatten()[1:-1]`, i.e. the left
endpoint of each right interval minus the right endpoint of the adjacent
left interval. -/
def junctionDiffs (funs : List Bndfun) : List ℚ :=
  List.zipWith (fun l r => r.interval.a - l.interval.b) funs funs.tail

/-- `check_funs(funs)`: empty input passes trivially; otherwise sort by left
endpoint and raise `IntervalOverlap` when any junction discrepancy is
negative, then `IntervalGap` when any is positive (`_sortindex`). -/
def check_funs (funs : List Bndfun) : Except ChebError (List Bndfun) :=
  match funs with
  | [] => .ok []
  | _ :: _ =>
    let srt := sortByLeft funs
    let d := junctionDiffs srt
    if d.any (fun x => decide (x < 0)) then .error .intervalOverlap
    else if d.any (fun x => decide (x > 0)) then .error .intervalGap
    else .ok srt

/-- Stride-2 slice (`l[::2]`): the elements at even indices. -/
def everyOther : List ℚ → List ℚ
  | [] => []
  | [x] => [x]
  | x :: _ :: t => x :: everyOther t

/-- `compute_breakdata(funs)`: flatten the pieces' endpoints and endvalues,
keep the outer entries one-sided, and average the interior pairs
(`.5 * (xx[::2] + xx[1::2])`); the association is `zip(xout, yout)`.  The
`headD`/`getLastD` defaults never fire: the nonempty branch always has at
least two points. -/
def compute_breakdata (funs : List Bndfun) : List (ℚ × ℚ) :=
  match funs with
  | [] => []
  | _ :: _ =>
    let points := (funs.map fun h => [h.interval.a, h.interval.b]).flatten
    let values := (funs.map fun h => [h.f h.interval.a, h.f h.interval.b]).flatten
    let xl := points.headD 0
    let xr := points.getLastD 0
    let yl := values.headD 0
    let yr := values.getLastD 0
    let xx := points.tail.dropLast
    let yy := values.tail.dropLast
    let x := List.zipWith (fun p q => (1/2 : ℚ) * (p + q)) (everyOther xx) (everyOther xx.tail)
    let y := List.zipWith (fun p q => (1/2 : ℚ) * (p + q)) (everyOther yy) (everyOther yy.tail)
    List.zip (xl :: x ++ [xr]) (yl :: y ++ [yr])

/-- `Chebfun.__init__`: sort/validate the pieces with `check_funs`, then
recompute `breakdata` from the validated piece array. -/
def Chebfun.init (funs : List Bndfun) :
    Except ChebError (List Bndfun × List (ℚ × ℚ)) :=
  (check_funs funs).map fun fs => (fs, compute_breakdata fs)

/-- A validated piece array: each interval is nondegenerate and every
junction is exact (what `check_funs` guarantees about its output). -/
def Tiling (funs : List Bndfun) : Prop :=
  (∀ g ∈ funs, g.interval.a < g.interval.b) ∧
    funs.Chain' (fun l r => l.interval.b = r.interval.a)

/-- The breakpoint sequence of a validated piece array: the first left
endpoint followed by every right endpoint. -/
def bpList : List Bndfun → List ℚ
  | [] => []
  | g :: rest => g.interval.a :: (g :: rest).map fun h => h.interval.b

/-- `Chebfun.__call__(x)` at one point, following the masked writes in
order: `nan`; then each piece writes its value where `x` is interior to its
interval (later pieces overwrite); then each breakpoint writes its
`breakdata` value where `x` equals it; finally points left (right) of the
first (last) breakpoint are overwritten with the first (last) piece's
value. -/
def Chebfun.evalPoint (funs : List Bndfun) (x : ℚ) : Option ℚ :=
  let breakdata := compute_breakdata funs
  let breakpoints := breakdata.map Prod.fst
  let out1 : Option ℚ :=
    ((funs.filter fun g => g.interval.isinterior x).getLast?).map fun g => g.f x
  let out2 : Option ℚ :=
    match ((breakdata.filter fun p => decide (p.1 = x)).getLast?).map Prod.snd with
    | some v => some v
    | none => out1
  let out3 : Option ℚ :=
    match breakpoints.head?, funs.head? with
    | some b0, some g0 => if x < b0 then some (g0.f x) else out2
    | _, _ => out2
  match breakpoints.getLast?, funs.getLast? with
  | some bn, some gn => if bn < x then some (gn.f x) else out3
  | _, _ => out3

/-- Modelled from the spec: `Bndfun` addition with a scalar (bndfun.py and
the series algebra are not among the sources under study) shifts the
represented function pointwise by the scalar, on the same interval. -/
def Bndfun.addConst (g : Bndfun) (c : ℚ) : Bndfun :=
  { interval := g.interval, f := fun x => g.f x + c }

/-- The loop of `Chebfun.cumsum`, with the per-piece antiderivative
`pcs` (`fun.cumsum()`, from the missing bndfun.py) supplied as a parameter:
`integral = fun.cumsum()`; when a previous (already shifted) piece exists,
add its right endvalue `fb`; the shifted piece becomes `prevfun`. -/
def cumsumGo (pcs : Bndfun → Bndfun) : Option Bndfun → List Bndfun → List Bndfun
  | _, [] => []
  | prevfun, g :: rest =>
    let integral := pcs g
    let integral :=
      match prevfun with
      | some p => integral.addConst p.endvalues.2
      | none => integral
    integral :: cumsumGo pcs (some integral) rest

/-- `Chebfun.cumsum()`: run the loop with no previous piece. -/
def Chebfun.cumsum (pcs : Bndfun → Bndfun) (funs : List Bndfun) : List Bndfun :=
  cumsumGo pcs none funs

/-- The loop of `Chebfun.roots`, with each piece's reported roots
(`fun.roots()`, from the missing bndfun.py) supplied as data: drop the
current piece's first root when the previous piece's retained roots end
within `htol` of it; the retained roots become `prvrts`. -/
def rootsRun (htol : ℚ) : List ℚ → List (List ℚ) → List ℚ
  | _, [] => []
  | prvrts, rts :: rest =>
    let rts :=
      if prvrts ≠ [] ∧ rts ≠ [] ∧ |prvrts.getLastD 0 - rts.headD 0| ≤ htol
      then rts.tail else rts
    rts ++ rootsRun htol rts rest

/-- `Chebfun.roots()`: `htol = 1e2 * self.hscale * DefaultPrefs.eps`, then
the concatenating loop starting from an empty `prvrts`.  `hscale` and the
machine epsilon are abstract inputs here. -/
def Chebfun.roots (hscale eps : ℚ) (pieceRoots : List (List ℚ)) : List ℚ :=
  rootsRun (100 * hscale * eps) [] pieceRoots

/-- The per-piece root lists retained by `rootsRun`, piece by piece. -/
def retainedLists (htol : ℚ) : List ℚ → List (List ℚ) → List (List ℚ)
  | _, [] => []
  | prvrts, rts :: rest =>
    let rts :=
      if prvrts ≠ [] ∧ rts ≠ [] ∧ |prvrts.getLastD 0 - rts.headD 0| ≤ htol
      then rts.tail else rts
    rts :: retainedLists htol rts rest

/-- The dedup rule exactly as the claim words it: a piece's first root is
dropped when the immediately preceding piece's REPORTED roots end within
`htol` of it (comparison against the reported list, not the retained
one). -/
def rootsDedupClaim (htol : ℚ) : List ℚ → List (List ℚ) → List ℚ
  | _, [] => []
  | prv, rts :: rest =>
    let kept :=
      if prv ≠ [] ∧ rts ≠ [] ∧ |prv.getLastD 0 - rts.headD 0| ≤ htol
      then rts.tail else rts
    kept ++ rootsDedupClaim htol rts rest

/-- `Chebfun.initfun_fixedlen(f, domain, n)` up to the construction of the
per-subinterval `(Interval, length)` plan: raise `BadDomainArgument` for a
domain of fewer than two breakpoints; broadcast a size-1 length vector to
all subintervals; raise `BadFunLengthArgument` when a longer length vector
does not match the subinterval count; otherwise pair
`zip(domain[:-1], domain[1:])` with the lengths (`zip` truncates), building
each `Interval(*interval)` as the loop does. -/
def initfun_fixedlen_plan (domain : List ℚ) (n : List ℕ) :
    Except ChebError (List (Interval × ℕ)) :=
  if domain.length < 2 then .error .badDomainArgument
  else
    let nnE : Except ChebError (List ℕ) :=
      if n.length = 1 then .ok (List.replicate (domain.length - 1) (n.headD 0))
      else if 1 < n.length ∧ n.length ≠ domain.length - 1 then .error .badFunLengthArgument
      else .ok n
    nnE.bind fun nn =>
      (List.zip (List.zip domain.dropLast domain.tail) nn).mapM fun pl =>
        (Interval.make pl.1.1 pl.1.2).map fun i => (i, pl.2)

/-- `Chebfun.__break(targetdomain)` as written: `intvl_gen =
targetdomain.__iter__()` iterates over the Domain's scalar breakpoints
(`Domain.__iter__` returns `self.breakpoints.__iter__()`), so the first
statement `intvl = Interval(*intvl_gen.next())` unpacks a scalar breakpoint
as an `Interval` argument list.  On a nonempty breakpoint sequence this
raises `TypeError` before any piece is restricted; on an empty one the
uncaught `next()` raises `StopIteration`. -/
def Chebfun.breakResample (_funs : List Bndfun) (targetdomain : Domain) :
    Except ChebError (List Bndfun) :=
  match targetdomain.breakpoints with
  | [] => .error .stopIteration
  | _ :: _ => .error .typeError

end Chebpy

namespace Chebpy

/-! ## Basic facts about the embedded `Interval` and `Domain` -/

theorem Interval.isinterior_iff (i : Interval) (x : ℚ) :
    i.isinterior x = true ↔ i.a < x ∧ x < i.b := by
  simp [Interval.isinterior]

theorem Interval.containsIntvl_iff (i other : Interval) :
    i.containsIntvl other = true ↔ i.a ≤ other.a ∧ other.b ≤ i.b := by
  simp [Interval.containsIntvl]

/-! ## Facts about `insertUnique` / `sortedDedup` (the `numpy.unique` model) -/

theorem mem_insertUnique (x y : ℚ) (l : List ℚ) :
    y ∈ insertUnique x l ↔ y = x ∨ y ∈ l := by
  induction l with
  | nil => simp [insertUnique]
  | cons z zs ih =>
    unfold insertUnique
    split_ifs with h1 h2
    · simp [List.mem_cons]
    · subst h2; simp [List.mem_cons]
    · simp [List.mem_cons, ih]; tauto

theorem head?_insertUnique (x : ℚ) (l : List ℚ) :
    (insertUnique x l).head? = some x ∨ (insertUnique x l).head? = l.head? := by
  cases l with
  | nil => simp [insertUnique]
  | cons z zs => unfold insertUnique; split_ifs <;> simp

theorem chain'_insertUnique (x : ℚ) (l : List ℚ) (h : l.Chain' (· < ·)) :
    (insertUnique x l).Chain' (· < ·) := by
  induction l with
  | nil => simp [insertUnique]
  | cons z zs ih =>
    rw [List.chain'_cons'] at h
    obtain ⟨hhead, htl⟩ := h
    unfold insertUnique
    split_ifs with h1 h2
    · refine List.chain'_cons'.mpr ⟨?_, List.chain'_cons'.mpr ⟨hhead, htl⟩⟩
      intro w hw
      simp only [List.head?_cons, Option.mem_def, Option.some.injEq] at hw
      exact hw ▸ h1
    · exact List.chain'_cons'.mpr ⟨hhead, htl⟩
    · have hz : z < x := lt_of_le_of_ne (not_lt.mp h1) (Ne.symm h2)
      refine List.chain'_cons'.mpr ⟨?_, ih htl⟩
      intro w hw
      rcases head?_insertUnique x zs with hh | hh
      · rw [hh] at hw
        simp only [Option.mem_def, Option.some.injEq] at hw
        exact hw ▸ hz
      · rw [hh] at hw
        exact hhead w hw

theorem mem_sortedDedup (y : ℚ) (xs : List ℚ) :
    y ∈ sortedDedup xs ↔ y ∈ xs := by
  induction xs with
  | nil => simp [sortedDedup]
  | cons z zs ih =>
    simp only [sortedDedup, List.foldr_cons] at ih ⊢
    rw [mem_insertUnique, ih, List.mem_cons]

theorem chain'_sortedDedup (xs : List ℚ) : (sortedDedup xs).Chain' (· < ·) := by
  induction xs with
  | nil => simp [sortedDedup]
  | cons z zs ih => exact chain'_insertUnique z _ ih

/-- Two strictly ascending lists with the same members are equal. -/
theorem chain'_lt_ext {l₁ l₂ : List ℚ} (h₁ : l₁.Chain' (· < ·))
    (h₂ : l₂.Chain' (· < ·)) (hmem : ∀ x, x ∈ l₁ ↔ x ∈ l₂) : l₁ = l₂ := by
  have p₁ : l₁.Pairwise (· < ·) := List.chain'_iff_pairwise.mp h₁
  have p₂ : l₂.Pairwise (· < ·) := List.chain'_iff_pairwise.mp h₂
  have n₁ : l₁.Nodup := p₁.imp ne_of_lt
  have n₂ : l₂.Nodup := p₂.imp ne_of_lt
  have hperm : l₁.Perm l₂ := (List.perm_ext_iff_of_nodup n₁ n₂).mpr hmem
  haveI : IsAntisymm ℚ (· < ·) := ⟨fun _ _ h h' => absurd h (asymm h')⟩
  exact List.eq_of_perm_of_sorted hperm p₁ p₂

theorem two_le_length_of_two_mem {l : List ℚ} {x y : ℚ} (hx : x ∈ l) (hy : y ∈ l)
    (hxy : x ≠ y) : 2 ≤ l.length := by
  rcases l with _ | ⟨a, _ | ⟨b, t⟩⟩
  · simp at hx
  · simp at hx hy; exact absurd (hx.trans hy.symm) hxy
  · simp only [List.length_cons]; omega

/-- The no-nonpositive-difference scan of `Domain.__init__` succeeds exactly
on strictly ascending breakpoint lists. -/
theorem diff_scan_iff_chain' (bs : List ℚ) :
    ((List.zipWith (fun x y => y - x) bs bs.tail).any (fun d => decide (d ≤ 0)) = false)
      ↔ bs.Chain' (· < ·) := by
  induction bs with
  | nil => simp
  | cons x ys ih =>
    rcases ys with _ | ⟨y, zs⟩
    · simp
    · simp only [List.tail_cons, List.zipWith_cons_cons, List.any_cons, Bool.or_eq_false_iff,
        decide_eq_false_iff_not, not_le, List.chain'_cons, sub_pos] at ih ⊢
      tauto

theorem Domain.make_ok_iff (bs : List ℚ) (d : Domain) :
    Domain.make bs = .ok d ↔ d.breakpoints = bs ∧ 2 ≤ bs.length ∧ bs.Chain' (· < ·) := by
  unfold Domain.make
  rcases Nat.lt_or_ge bs.length 2 with h1 | h1
  · rw [if_pos h1]
    constructor
    · intro hcon; cases hcon
    · rintro ⟨-, h2, -⟩; omega
  · rw [if_neg (not_lt.mpr h1)]
    by_cases h2 : (List.zipWith (fun x y => y - x) bs bs.tail).any (fun d => decide (d ≤ 0)) = true
    · rw [if_pos h2]
      constructor
      · intro hcon; cases hcon
      · rintro ⟨-, -, hch⟩
        rw [← diff_scan_iff_chain'] at hch
        rw [h2] at hch; cases hch
    · rw [if_neg h2]
      constructor
      · intro h
        obtain rfl : (⟨bs⟩ : Domain) = d := by
          exact Except.ok.inj h
        exact ⟨rfl, h1, (diff_scan_iff_chain' bs).mp (Bool.eq_false_iff.mpr h2)⟩
      · rintro ⟨hd, -, -⟩
        cases d
        simp only [Domain.mk.injEq] at hd ⊢
        rw [hd]

/-- For valid inputs, `merge` succeeds and its breakpoints are the sorted
union (the sorted distinct values of the concatenation). -/
theorem Domain.merge_ok (d₁ d₂ : Domain) (h₁ : d₁.Valid) :
    d₁.merge d₂ = .ok ⟨sortedDedup (d₁.breakpoints ++ d₂.breakpoints)⟩ := by
  rw [Domain.merge, Domain.make_ok_iff]
  refine ⟨rfl, ?_, chain'_sortedDedup _⟩
  obtain ⟨hlen, hch⟩ := h₁
  rcases hb : d₁.breakpoints with _ | ⟨x, l⟩
  · rw [hb] at hlen; simp at hlen
  · rcases l with _ | ⟨y, t⟩
    · rw [hb] at hlen; simp at hlen
    · have hxy : x < y := by
        rw [hb] at hch
        exact (List.chain'_cons.mp hch).1
      refine two_le_length_of_two_mem (x := x) (y := y) ?_ ?_ (ne_of_lt hxy)
      · rw [mem_sortedDedup]; simp [hb]
      · rw [mem_sortedDedup]; simp [hb]

theorem Domain.beq_iff (d e : Domain) :
    d.beq e = true ↔ ∀ x, x ∈ d.breakpoints ↔ x ∈ e.breakpoints := by
  simp only [Domain.beq, Bool.and_eq_true, List.all_eq_true, decide_eq_true_eq]
  constructor
  · rintro ⟨h1, h2⟩ x; exact ⟨h1 x, h2 x⟩
  · intro h; exact ⟨fun x hx => (h x).mp hx, fun x hx => (h x).mpr hx⟩

end Chebpy

namespace Chebpy

/-- **C9** — For every `Interval` `[a,b]` and every `x`, `isinterior x` holds
iff `a < x` and `x < b` (strict at both endpoints), whereas containment of
another `Interval` `[x,y]` holds iff `a ≤ x` and `y ≤ b` (inclusive at both
endpoints). -/
theorem c9_isinterior_strict_contains_inclusive (i j : Interval) (x : ℚ) :
    (i.isinterior x = true ↔ i.a < x ∧ x < i.b) ∧
    (i.containsIntvl j = true ↔ i.a ≤ j.a ∧ j.b ≤ i.b) :=
  ⟨Interval.isinterior_iff i x, Interval.containsIntvl_iff i j⟩

/-- **C8** — For all (validly constructed) Domains `d₁` and `d₂`,
`d₁.union d₂` raises a support-mismatch error when the supports (first and
last breakpoints) differ, and otherwise returns the merge; `d₁.merge d₂`
never checks support and always returns the Domain whose breakpoints are the
sorted union (duplicates removed) of the two breakpoint sequences. -/
theorem c8_union_needs_support_merge_unconditional (d₁ d₂ : Domain)
    (h₁ : d₁.Valid) (h₂ : d₂.Valid) :
    (d₁.support ≠ d₂.support → d₁.union d₂ = .error .supportMismatch) ∧
    (d₁.support = d₂.support → d₁.union d₂ = d₁.merge d₂) ∧
    d₁.merge d₂ = .ok ⟨sortedDedup (d₁.breakpoints ++ d₂.breakpoints)⟩ ∧
    d₂.merge d₁ = .ok ⟨sortedDedup (d₂.breakpoints ++ d₁.breakpoints)⟩ := by
  refine ⟨fun hne => ?_, fun heq => ?_, Domain.merge_ok d₁ d₂ h₁, Domain.merge_ok d₂ d₁ h₂⟩
  · rw [Domain.union, if_pos hne]
  · rw [Domain.union, if_neg (by simp [heq])]

theorem c8_witness :
    (⟨[0, 1]⟩ : Domain).merge ⟨[0, 1/2, 1]⟩ =
      .ok ⟨sortedDedup ([0, 1] ++ [0, 1/2, 1])⟩ :=
  (c8_union_needs_support_merge_unconditional ⟨[0, 1]⟩ ⟨[0, 1/2, 1]⟩
    (by norm_num [Domain.Valid, List.chain'_cons])
    (by norm_num [Domain.Valid, List.chain'_cons])).2.2.1

/-- **C10** — For all valid Domains `d₁` and `d₂` (any supports),
`d₁.merge d₂` never raises, `d₁.merge d₂` equals `d₂.merge d₁` under Domain
equality (`Domain.__eq__`, mutual breakpoint membership), and `d₁.merge d₁`
equals `d₁`: merge is total, commutative and idempotent. -/
theorem c10_merge_total_comm_idem (d₁ d₂ : Domain) (h₁ : d₁.Valid) (h₂ : d₂.Valid) :
    (∃ m, d₁.merge d₂ = .ok m) ∧
    (∀ m m', d₁.merge d₂ = .ok m → d₂.merge d₁ = .ok m' → m.beq m' = true) ∧
    (∀ m, d₁.merge d₁ = .ok m → m.beq d₁ = true) := by
  refine ⟨⟨_, Domain.merge_ok d₁ d₂ h₁⟩, ?_, ?_⟩
  · intro m m' hm hm'
    rw [Domain.merge_ok d₁ d₂ h₁] at hm
    rw [Domain.merge_ok d₂ d₁ h₂] at hm'
    obtain rfl := Except.ok.inj hm
    obtain rfl := Except.ok.inj hm'
    rw [Domain.beq_iff]
    intro x
    rw [mem_sortedDedup, mem_sortedDedup, List.mem_append, List.mem_append]
    tauto
  · intro m hm
    rw [Domain.merge_ok d₁ d₁ h₁] at hm
    obtain rfl := Except.ok.inj hm
    rw [Domain.beq_iff]
    intro x
    rw [mem_sortedDedup, List.mem_append]
    tauto

/-! ## Structure of the flattened endpoint/endvalue lists in
`compute_breakdata` -/

theorem pairs_mid_cons_cons (p q : Bndfun → ℚ) (g h : Bndfun) (t : List Bndfun) :
    (((g :: h :: t).map fun x => [p x, q x]).flatten).tail.dropLast
      = q g :: p h :: (((h :: t).map fun x => [p x, q x]).flatten).tail.dropLast := by
  simp only [List.map_cons, List.flatten_cons, List.cons_append, List.nil_append,
    List.tail_cons]
  rw [List.dropLast_cons₂, List.dropLast_cons₂]

theorem everyOther_mids (p q : Bndfun → ℚ) :
    ∀ funs : List Bndfun,
      everyOther (((funs.map fun x => [p x, q x]).flatten).tail.dropLast)
        = funs.dropLast.map q
  | [] => by simp [everyOther]
  | [g] => by simp [everyOther]
  | g :: h :: t => by
    rw [pairs_mid_cons_cons]
    show q g :: everyOther (((((h :: t).map fun x => [p x, q x]).flatten).tail).dropLast)
      = ((g :: h :: t).dropLast).map q
    rw [everyOther_mids p q (h :: t), List.dropLast_cons₂, List.map_cons]

theorem everyOther_mids_tail (p q : Bndfun → ℚ) :
    ∀ funs : List Bndfun,
      everyOther ((((funs.map fun x => [p x, q x]).flatten).tail.dropLast).tail)
        = funs.tail.map p
  | [] => by simp [everyOther]
  | [g] => by simp [everyOther]
  | [g, h] => by
    simp [everyOther, List.dropLast_cons₂]
  | g :: h :: k :: t => by
    have ih := everyOther_mids_tail p q (h :: k :: t)
    rw [pairs_mid_cons_cons p q h k t] at ih
    rw [pairs_mid_cons_cons p q g h (k :: t), pairs_mid_cons_cons p q h k t]
    simp only [List.tail_cons] at ih ⊢
    show p h :: everyOther
        (p k :: (((k :: t).map fun x => [p x, q x]).flatten).tail.dropLast)
      = (h :: k :: t).map p
    rw [ih]
    simp

theorem pairs_headD (p q : Bndfun → ℚ) (g : Bndfun) (rest : List Bndfun) :
    (((g :: rest).map fun x => [p x, q x]).flatten).headD 0 = p g := by
  simp

theorem pairs_getLastD (p q : Bndfun → ℚ) :
    ∀ (g : Bndfun) (rest : List Bndfun) (d : ℚ),
      (((g :: rest).map fun x => [p x, q x]).flatten).getLastD d
        = q ((g :: rest).getLast (List.cons_ne_nil g rest))
  | g, [], d => by simp [List.getLastD_cons]
  | g, h :: t, d => by
    simp only [List.map_cons, List.flatten_cons, List.cons_append, List.nil_append,
      List.getLastD_cons]
    have := pairs_getLastD p q h t (q g)
    simp only [List.map_cons, List.flatten_cons, List.cons_append, List.nil_append,
      List.getLastD_cons] at this
    rw [this, List.getLast_cons (List.cons_ne_nil h t)]

theorem everyOther_mids_pts (funs : List Bndfun) :
    everyOther (((funs.map fun x => [x.interval.a, x.interval.b]).flatten).tail.dropLast)
      = funs.dropLast.map fun x => x.interval.b :=
  everyOther_mids (fun u => u.interval.a) (fun u => u.interval.b) funs

theorem everyOther_mids_pts_tail (funs : List Bndfun) :
    everyOther ((((funs.map fun x => [x.interval.a, x.interval.b]).flatten).tail.dropLast).tail)
      = funs.tail.map fun x => x.interval.a :=
  everyOther_mids_tail (fun u => u.interval.a) (fun u => u.interval.b) funs

theorem everyOther_mids_vals (funs : List Bndfun) :
    everyOther (((funs.map fun x => [x.f x.interval.a, x.f x.interval.b]).flatten).tail.dropLast)
      = funs.dropLast.map fun x => x.f x.interval.b :=
  everyOther_mids (fun u => u.f u.interval.a) (fun u => u.f u.interval.b) funs

theorem everyOther_mids_vals_tail (funs : List Bndfun) :
    everyOther ((((funs.map fun x => [x.f x.interval.a, x.f x.interval.b]).flatten).tail.dropLast).tail)
      = funs.tail.map fun x => x.f x.interval.a :=
  everyOther_mids_tail (fun u => u.f u.interval.a) (fun u => u.f u.interval.b) funs

theorem pairs_headD_pts (g : Bndfun) (rest : List Bndfun) :
    (((g :: rest).map fun x => [x.interval.a, x.interval.b]).flatten).headD 0
      = g.interval.a :=
  pairs_headD (fun u => u.interval.a) (fun u => u.interval.b) g rest

theorem pairs_headD_vals (g : Bndfun) (rest : List Bndfun) :
    (((g :: rest).map fun x => [x.f x.interval.a, x.f x.interval.b]).flatten).headD 0
      = g.f g.interval.a :=
  pairs_headD (fun u => u.f u.interval.a) (fun u => u.f u.interval.b) g rest

theorem pairs_getLastD_pts (g : Bndfun) (rest : List Bndfun) :
    (((g :: rest).map fun x => [x.interval.a, x.interval.b]).flatten).getLastD 0
      = ((g :: rest).getLast (List.cons_ne_nil g rest)).interval.b :=
  pairs_getLastD (fun u => u.interval.a) (fun u => u.interval.b) g rest 0

theorem pairs_getLastD_vals (g : Bndfun) (rest : List Bndfun) :
    (((g :: rest).map fun x => [x.f x.interval.a, x.f x.interval.b]).flatten).getLastD 0
      = ((g :: rest).getLast (List.cons_ne_nil g rest)).f
          ((g :: rest).getLast (List.cons_ne_nil g rest)).interval.b :=
  pairs_getLastD (fun u => u.f u.interval.a) (fun u => u.f u.interval.b) g rest 0

theorem compute_breakdata_single (g : Bndfun) :
    compute_breakdata [g] =
      [(g.interval.a, g.f g.interval.a), (g.interval.b, g.f g.interval.b)] := by
  simp [compute_breakdata, everyOther]

theorem compute_breakdata_cons_cons (g h : Bndfun) (t : List Bndfun) :
    compute_breakdata (g :: h :: t) =
      (g.interval.a, g.f g.interval.a) ::
        ((1/2 : ℚ) * (g.interval.b + h.interval.a),
          (1/2 : ℚ) * (g.f g.interval.b + h.f h.interval.a)) ::
        (compute_breakdata (h :: t)).tail := by
  simp only [compute_breakdata]
  simp only [everyOther_mids_pts, everyOther_mids_vals, everyOther_mids_pts_tail,
    everyOther_mids_vals_tail, pairs_headD_pts, pairs_headD_vals, pairs_getLastD_pts,
    pairs_getLastD_vals]
  simp only [List.dropLast_cons₂, List.tail_cons, List.map_cons,
    List.zipWith_cons_cons, List.getLast_cons (List.cons_ne_nil h t),
    List.cons_append, List.zip_cons_cons]

/-! ## Facts about validated piece arrays (`Tiling`) -/

theorem Tiling.tail {g : Bndfun} {rest : List Bndfun} (h : Tiling (g :: rest)) :
    Tiling rest :=
  ⟨fun x hx => h.1 x (List.mem_cons_of_mem g hx), (List.chain'_cons'.mp h.2).2⟩

theorem Tiling.junction {g h : Bndfun} {t : List Bndfun} (ht : Tiling (g :: h :: t)) :
    g.interval.b = h.interval.a :=
  (List.chain'_cons.mp ht.2).1

theorem junctionDiffs_zero_iff (l : List Bndfun) :
    (∀ d ∈ junctionDiffs l, d = 0) ↔ l.Chain' fun u v => u.interval.b = v.interval.a := by
  induction l with
  | nil => simp [junctionDiffs]
  | cons g rest ih =>
    rcases rest with _ | ⟨h, t⟩
    · simp [junctionDiffs]
    · rw [junctionDiffs] at ih ⊢
      simp only [List.tail_cons, List.zipWith_cons_cons, List.mem_cons, List.chain'_cons,
        forall_eq_or_imp] at ih ⊢
      constructor
      · rintro ⟨h1, h2⟩
        exact ⟨(sub_eq_zero.mp h1).symm, ih.mp h2⟩
      · rintro ⟨h1, h2⟩
        exact ⟨sub_eq_zero.mpr h1.symm, ih.mpr h2⟩

theorem tiling_head_le : ∀ (g : Bndfun) (rest : List Bndfun), Tiling (g :: rest) →
    ∀ r ∈ rest, g.interval.b ≤ r.interval.a
  | _, [], _, r, hr => absurd hr (List.not_mem_nil r)
  | g, h :: t, ht, r, hr => by
    rcases List.mem_cons.mp hr with rfl | hr'
    · exact le_of_eq ht.junction
    · calc g.interval.b = h.interval.a := ht.junction
        _ ≤ h.interval.b := le_of_lt (ht.1 h (by simp))
        _ ≤ r.interval.a := tiling_head_le h t ht.tail r hr'

theorem tiling_pairwise : ∀ funs : List Bndfun, Tiling funs →
    funs.Pairwise fun u v => u.interval.b ≤ v.interval.a
  | [], _ => List.Pairwise.nil
  | g :: rest, ht =>
    List.pairwise_cons.mpr ⟨tiling_head_le g rest ht, tiling_pairwise rest ht.tail⟩

/-- The symmetrised separation relation used for uniqueness arguments. -/
theorem tiling_pairwise_sym (funs : List Bndfun) (ht : Tiling funs) :
    funs.Pairwise fun u v =>
      u.interval.b ≤ v.interval.a ∨ v.interval.b ≤ u.interval.a :=
  (tiling_pairwise funs ht).imp Or.inl

theorem bpList_chain' : ∀ funs : List Bndfun, Tiling funs →
    (bpList funs).Chain' (· < ·)
  | [], _ => by simp [bpList]
  | [g], ht => by
    simp only [bpList, List.map_cons, List.map_nil]
    simpa using ht.1 g (by simp)
  | g :: h :: t, ht => by
    have ih := bpList_chain' (h :: t) ht.tail
    rw [bpList] at ih ⊢
    simp only [List.map_cons] at ih ⊢
    refine List.chain'_cons.mpr ⟨ht.1 g (by simp), ?_⟩
    rw [ht.junction]
    exact ih

theorem mem_bpList : ∀ funs : List Bndfun, Tiling funs →
    ∀ x : ℚ, x ∈ bpList funs ↔ ∃ g ∈ funs, x = g.interval.a ∨ x = g.interval.b
  | [], _, x => by simp [bpList]
  | [g], _, x => by
    simp only [bpList, List.map_cons, List.map_nil, List.mem_cons, List.not_mem_nil,
      or_false, List.mem_singleton]
    constructor
    · rintro (rfl | rfl) <;> exact ⟨g, by simp, by simp⟩
    · rintro ⟨g', hg', hor⟩
      subst hg'
      tauto
  | g :: h :: t, ht, x => by
    have ih := mem_bpList (h :: t) ht.tail x
    rw [bpList] at ih ⊢
    simp only [List.map_cons, List.mem_cons] at ih ⊢
    constructor
    · rintro (rfl | rfl | hm)
      · exact ⟨g, Or.inl rfl, Or.inl rfl⟩
      · exact ⟨g, Or.inl rfl, Or.inr rfl⟩
      · obtain ⟨g', hg', hor⟩ := ih.mp (Or.inr hm)
        exact ⟨g', Or.inr hg', hor⟩
    · rintro ⟨g', hg', hor⟩
      rcases hg' with rfl | hg'
      · tauto
      · have := ih.mpr ⟨g', hg', hor⟩
        rcases this with heq | hm
        · rw [← ht.junction] at heq
          tauto
        · tauto

theorem compute_breakdata_head : ∀ (g : Bndfun) (rest : List Bndfun),
    ∃ X, compute_breakdata (g :: rest) = (g.interval.a, g.f g.interval.a) :: X ∧ X ≠ []
  | g, [] => ⟨_, compute_breakdata_single g, by simp⟩
  | g, h :: t => ⟨_, compute_breakdata_cons_cons g h t, by simp⟩

theorem compute_breakdata_keys : ∀ funs : List Bndfun, Tiling funs →
    (compute_breakdata funs).map Prod.fst = bpList funs
  | [], _ => rfl
  | [g], _ => by simp [compute_breakdata_single, bpList]
  | g :: h :: t, ht => by
    have ih := compute_breakdata_keys (h :: t) ht.tail
    obtain ⟨X, hX, -⟩ := compute_breakdata_head h t
    rw [hX] at ih
    rw [compute_breakdata_cons_cons, hX]
    simp only [List.map_cons, List.tail_cons] at ih ⊢
    rw [bpList] at ih ⊢
    simp only [List.map_cons] at ih ⊢
    obtain ⟨-, ih2⟩ := List.cons.inj ih
    rw [ih2, ht.junction]
    have : (1/2 : ℚ) * (h.interval.a + h.interval.a) = h.interval.a := by ring
    rw [this]

theorem compute_breakdata_getLast? : ∀ (g : Bndfun) (rest : List Bndfun),
    (compute_breakdata (g :: rest)).getLast? =
      some (((g :: rest).getLast (List.cons_ne_nil g rest)).interval.b,
        ((g :: rest).getLast (List.cons_ne_nil g rest)).f
          ((g :: rest).getLast (List.cons_ne_nil g rest)).interval.b)
  | g, [] => by simp [compute_breakdata_single]
  | g, h :: t => by
    have ih := compute_breakdata_getLast? h t
    obtain ⟨X, hX, hXne⟩ := compute_breakdata_head h t
    rcases X with _ | ⟨e, X'⟩
    · exact absurd rfl hXne
    · rw [compute_breakdata_cons_cons, hX, List.tail_cons]
      rw [List.getLast?_cons_cons, List.getLast?_cons_cons,
        List.getLast_cons (List.cons_ne_nil h t)]
      rw [hX, List.getLast?_cons_cons] at ih
      exact ih

theorem compute_breakdata_junction : ∀ (funs : List Bndfun) (k : ℕ) (l r : Bndfun),
    funs[k]? = some l → funs[k + 1]? = some r →
    (compute_breakdata funs)[k + 1]? =
      some ((1/2 : ℚ) * (l.interval.b + r.interval.a),
        (1/2 : ℚ) * (l.f l.interval.b + r.f r.interval.a))
  | [], k, l, r => by simp
  | [g], k, l, r => by
    intro h1 h2
    rcases k with _ | k <;> simp at h2
  | g :: h :: t, 0, l, r => by
    intro h1 h2
    simp only [List.getElem?_cons_zero, Option.some.injEq] at h1
    simp only [List.getElem?_cons_succ, List.getElem?_cons_zero, Option.some.injEq] at h2
    rw [compute_breakdata_cons_cons]
    simp [h1, h2]
  | g :: h :: t, k + 1, l, r => by
    intro h1 h2
    simp only [List.getElem?_cons_succ] at h1 h2
    have ih := compute_breakdata_junction (h :: t) k l r h1 (by simpa using h2)
    obtain ⟨X, hX, -⟩ := compute_breakdata_head h t
    rw [hX] at ih
    simp only [List.getElem?_cons_succ] at ih
    rw [compute_breakdata_cons_cons, hX, List.tail_cons]
    simp only [List.getElem?_cons_succ]
    exact ih

/-! ## The sort performed by `_sortindex` -/

theorem insertByLeft_perm (g : Bndfun) (l : List Bndfun) :
    (insertByLeft g l).Perm (g :: l) := by
  induction l with
  | nil => exact List.Perm.refl _
  | cons h t ih =>
    unfold insertByLeft
    split_ifs
    · exact List.Perm.refl _
    · exact (ih.cons h).trans (List.Perm.swap g h t)

theorem sortByLeft_perm : ∀ l : List Bndfun, (sortByLeft l).Perm l
  | [] => List.Perm.refl _
  | g :: t => (insertByLeft_perm g (sortByLeft t)).trans ((sortByLeft_perm t).cons g)

theorem insertByLeft_head? (g : Bndfun) (l : List Bndfun) :
    (insertByLeft g l).head? = some g ∨ (insertByLeft g l).head? = l.head? := by
  cases l with
  | nil => simp [insertByLeft]
  | cons h t => unfold insertByLeft; split_ifs <;> simp

theorem insertByLeft_chain' (g : Bndfun) (l : List Bndfun)
    (h : l.Chain' fun u v => u.interval.a ≤ v.interval.a) :
    (insertByLeft g l).Chain' fun u v => u.interval.a ≤ v.interval.a := by
  induction l with
  | nil => simp [insertByLeft]
  | cons z zs ih =>
    rw [List.chain'_cons'] at h
    obtain ⟨hhead, htl⟩ := h
    unfold insertByLeft
    split_ifs with h1
    · refine List.chain'_cons'.mpr ⟨?_, List.chain'_cons'.mpr ⟨hhead, htl⟩⟩
      intro w hw
      simp only [List.head?_cons, Option.mem_def, Option.some.injEq] at hw
      exact hw ▸ le_of_lt h1
    · have hz : z.interval.a ≤ g.interval.a := not_lt.mp h1
      refine List.chain'_cons'.mpr ⟨?_, ih htl⟩
      intro w hw
      rcases insertByLeft_head? g zs with hh | hh
      · rw [hh] at hw
        simp only [Option.mem_def, Option.some.injEq] at hw
        exact hw ▸ hz
      · rw [hh] at hw
        exact hhead w hw

theorem sortByLeft_chain' : ∀ l : List Bndfun,
    (sortByLeft l).Chain' fun u v => u.interval.a ≤ v.interval.a
  | [] => by simp [sortByLeft]
  | g :: t => insertByLeft_chain' g (sortByLeft t) (sortByLeft_chain' t)

/-! ## Helpers for the evaluation routing of `Chebfun.__call__` -/

theorem getLast?_of_all_eq {p : Bndfun} : ∀ l : List Bndfun, l ≠ [] →
    (∀ y ∈ l, y = p) → l.getLast? = some p
  | [], h, _ => absurd rfl h
  | [y], _, hall => by rw [hall y (by simp)]; rfl
  | y :: u :: t, _, hall => by
    rw [List.getLast?_cons_cons]
    exact getLast?_of_all_eq (u :: t) (by simp)
      fun z hz => hall z (List.mem_cons_of_mem y hz)

theorem chain'_head?_le (l : List ℚ) (hch : l.Chain' (· < ·)) (z : ℚ) (hz : z ∈ l)
    (y : ℚ) (hy : l.head? = some y) : y ≤ z := by
  cases l with
  | nil => simp at hz
  | cons a t =>
    obtain rfl : a = y := by simpa using hy
    rcases List.mem_cons.mp hz with rfl | hz'
    · exact le_refl z
    · have hpw := List.chain'_iff_pairwise.mp hch
      rw [List.pairwise_cons] at hpw
      exact le_of_lt (hpw.1 z hz')

theorem chain'_le_getLast? : ∀ l : List ℚ, l.Chain' (· < ·) → ∀ z ∈ l,
    ∀ w, l.getLast? = some w → z ≤ w
  | [], _, z, hz, _, _ => by simp at hz
  | [y], _, z, hz, w, hw => by
    simp only [List.mem_singleton] at hz
    simp only [List.getLast?_singleton, Option.some.injEq] at hw
    rw [hz, hw]
  | y :: u :: t, hch, z, hz, w, hw => by
    rw [List.getLast?_cons_cons] at hw
    rcases List.mem_cons.mp hz with rfl | hz'
    · have h1 : z < u := (List.chain'_cons.mp hch).1
      have h2 := chain'_le_getLast? (u :: t) (List.chain'_cons.mp hch).2 u (by simp) w hw
      exact le_of_lt (lt_of_lt_of_le h1 h2)
    · exact chain'_le_getLast? (u :: t) (List.chain'_cons.mp hch).2 z hz' w hw

theorem filter_key_eq_single : ∀ (l : List (ℚ × ℚ)) (x v : ℚ),
    (l.map Prod.fst).Nodup → (x, v) ∈ l →
    (l.filter fun e => decide (e.1 = x)) = [(x, v)]
  | [], x, v, _, hm => by simp at hm
  | e :: t, x, v, hnd, hm => by
    simp only [List.map_cons, List.nodup_cons] at hnd
    rcases List.mem_cons.mp hm with rfl | hm'
    · rw [List.filter_cons, if_pos (by simp)]
      have ht : (t.filter fun e => decide (e.1 = x)) = [] := by
        rw [List.filter_eq_nil_iff]
        intro a ha
        simp only [decide_eq_true_eq]
        intro hax
        exact hnd.1 (hax ▸ List.mem_map.mpr ⟨a, ha, rfl⟩)
      rw [ht]
    · have hx : ¬ e.1 = x := by
        intro he
        exact hnd.1 (he ▸ List.mem_map.mpr ⟨(x, v), hm', rfl⟩)
      rw [List.filter_cons, if_neg (by simpa using hx)]
      exact filter_key_eq_single t x v hnd.2 hm'

theorem bd_keys_nodup (funs : List Bndfun) (ht : Tiling funs) :
    ((compute_breakdata funs).map Prod.fst).Nodup := by
  rw [compute_breakdata_keys _ ht]
  exact (List.chain'_iff_pairwise.mp (bpList_chain' _ ht)).imp ne_of_lt

theorem interior_owner_eq (funs : List Bndfun) (ht : Tiling funs) (x : ℚ)
    (p : Bndfun) (hp : p ∈ funs) (hp1 : p.interval.a < x) (hp2 : x < p.interval.b) :
    ∀ y ∈ funs, y.interval.a < x → x < y.interval.b → y = p := by
  intro y hy hy1 hy2
  by_contra hne
  rcases (tiling_pairwise_sym funs ht).forall (fun _ _ h => Or.symm h) hy hp hne with h | h
  · linarith
  · linarith

theorem not_mem_bpList_of_interior (funs : List Bndfun) (ht : Tiling funs) (x : ℚ)
    (p : Bndfun) (hp : p ∈ funs) (hp1 : p.interval.a < x) (hp2 : x < p.interval.b) :
    x ∉ bpList funs := by
  intro hx
  obtain ⟨u, hu, hor⟩ := (mem_bpList funs ht x).mp hx
  have hvu := ht.1 u hu
  by_cases hup : u = p
  · subst hup
    rcases hor with rfl | rfl <;> linarith
  · rcases (tiling_pairwise_sym funs ht).forall (fun _ _ h => Or.symm h) hu hp hup with h | h <;>
      rcases hor with rfl | rfl <;> linarith

theorem filter_interior_getLast? (funs : List Bndfun) (ht : Tiling funs) (x : ℚ)
    (p : Bndfun) (hp : p ∈ funs) (hp1 : p.interval.a < x) (hp2 : x < p.interval.b) :
    (funs.filter fun u => u.interval.isinterior x).getLast? = some p := by
  apply getLast?_of_all_eq
  · intro hnil
    have hmem : p ∈ funs.filter fun u => u.interval.isinterior x :=
      List.mem_filter.mpr ⟨hp, by simp [Interval.isinterior, hp1, hp2]⟩
    rw [hnil] at hmem
    simp at hmem
  · intro y hy
    obtain ⟨hy1, hy2⟩ := List.mem_filter.mp hy
    rw [Interval.isinterior_iff] at hy2
    exact interior_owner_eq funs ht x p hp hp1 hp2 y hy1 hy2.1 hy2.2

theorem tiling_exists_interior : ∀ (g : Bndfun) (rest : List Bndfun),
    Tiling (g :: rest) → ∀ x : ℚ, g.interval.a < x →
    x < ((g :: rest).getLast (List.cons_ne_nil g rest)).interval.b →
    x ∉ bpList (g :: rest) →
    ∃ p ∈ g :: rest, p.interval.a < x ∧ x < p.interval.b
  | g, [], _, x, h1, h2, _ => ⟨g, by simp, h1, by simpa using h2⟩
  | g, h :: t, ht, x, h1, h2, hnm => by
    by_cases hx : x < g.interval.b
    · exact ⟨g, by simp, h1, hx⟩
    · have hne : x ≠ g.interval.b := by
        intro heq
        exact hnm (by rw [heq, bpList]; simp)
      have hgt : g.interval.b < x := lt_of_le_of_ne (not_lt.mp hx) (Ne.symm hne)
      have hnm' : x ∉ bpList (h :: t) := by
        intro hm
        apply hnm
        rw [bpList] at hm ⊢
        simp only [List.map_cons, List.mem_cons] at hm ⊢
        rcases hm with heq | hm
        · exact Or.inr (Or.inl (ht.junction ▸ heq))
        · tauto
      have h2' : x < ((h :: t).getLast (List.cons_ne_nil h t)).interval.b := by
        rw [List.getLast_cons (List.cons_ne_nil h t)] at h2
        exact h2
      obtain ⟨p, hp, hp1, hp2⟩ :=
        tiling_exists_interior h t ht.tail x (ht.junction ▸ hgt) h2' hnm'
      exact ⟨p, List.mem_cons_of_mem g hp, hp1, hp2⟩

theorem cumsumGo_cons (pcs : Bndfun → Bndfun) (acc : Option Bndfun) (g : Bndfun)
    (rest : List Bndfun) :
    cumsumGo pcs acc (g :: rest) =
      (match acc with
        | some p => (pcs g).addConst p.endvalues.2
        | none => pcs g) ::
        cumsumGo pcs
          (some (match acc with
            | some p => (pcs g).addConst p.endvalues.2
            | none => pcs g)) rest := by
  cases acc <;> rfl

theorem cumsumGo_step (pcs : Bndfun → Bndfun) (acc : Option Bndfun)
    (funs : List Bndfun) (k : ℕ) (g h : Bndfun) (hg : funs[k + 1]? = some g)
    (hh : (cumsumGo pcs acc funs)[k]? = some h) :
    (cumsumGo pcs acc funs)[k + 1]? = some ((pcs g).addConst h.endvalues.2) := by
  induction funs generalizing acc k with
  | nil => simp at hg
  | cons g₀ rest ih =>
    rw [cumsumGo_cons] at hh ⊢
    cases k with
    | zero =>
      simp only [List.getElem?_cons_zero, Option.some.injEq] at hh
      simp only [List.getElem?_cons_succ] at hg ⊢
      rcases rest with _ | ⟨g₁, rest'⟩
      · simp at hg
      · simp only [List.getElem?_cons_zero, Option.some.injEq] at hg
        rw [cumsumGo_cons]
        simp only [List.getElem?_cons_zero, Option.some.injEq]
        rw [hg, hh]
    | succ k =>
      simp only [List.getElem?_cons_succ] at hg hh ⊢
      exact ih _ _ hg hh

theorem cumsumGo_head_rel (pcs : Bndfun → Bndfun)
    (hL : ∀ g, (pcs g).f (pcs g).interval.a = 0) (p : Bndfun) (funs : List Bndfun) :
    ∀ y ∈ (cumsumGo pcs (some p) funs).head?, p.endvalues.2 = y.endvalues.1 := by
  cases funs with
  | nil => simp [cumsumGo]
  | cons g rest =>
    intro y hy
    rw [cumsumGo_cons] at hy
    simp only [List.head?_cons, Option.mem_def, Option.some.injEq] at hy
    subst hy
    simp [Bndfun.addConst, Bndfun.endvalues, hL g]

theorem cumsumGo_chain (pcs : Bndfun → Bndfun)
    (hL : ∀ g, (pcs g).f (pcs g).interval.a = 0) (acc : Option Bndfun)
    (funs : List Bndfun) :
    (cumsumGo pcs acc funs).Chain' fun l r => l.endvalues.2 = r.endvalues.1 := by
  induction funs generalizing acc with
  | nil => simp [cumsumGo]
  | cons g rest ih =>
    rw [cumsumGo_cons]
    exact List.chain'_cons'.mpr ⟨cumsumGo_head_rel pcs hL _ rest, ih _⟩

theorem cumsumGo_intervals (pcs : Bndfun → Bndfun)
    (hI : ∀ g, (pcs g).interval = g.interval) (acc : Option Bndfun)
    (funs : List Bndfun) :
    (cumsumGo pcs acc funs).map (fun h => h.interval) =
      funs.map fun h => h.interval := by
  induction funs generalizing acc with
  | nil => rfl
  | cons g rest ih =>
    rw [cumsumGo_cons]
    simp only [List.map_cons, ih]
    cases acc <;> simp [Bndfun.addConst, hI g]

theorem rootsRun_eq_flatten (htol : ℚ) (prv : List ℚ) (prs : List (List ℚ)) :
    rootsRun htol prv prs = (retainedLists htol prv prs).flatten := by
  induction prs generalizing prv with
  | nil => rfl
  | cons rts rest ih => simp only [rootsRun, retainedLists, List.flatten_cons, ih]

theorem rootsRun_two_piece (htol : ℚ) (h : 0 ≤ htol) (xs ys : List ℚ) (r : ℚ) :
    rootsRun htol [] [xs ++ [r], r :: ys] = (xs ++ [r]) ++ ys := by
  rw [rootsRun]
  simp only [ne_eq, not_true_eq_false, false_and, if_false]
  rw [rootsRun]
  rw [if_pos ⟨by simp, by simp, by rw [List.getLastD_concat]; simpa using h⟩]
  rw [rootsRun]
  simp

/-- **C4** — With `pcs` the per-piece antiderivative (left-anchored: it
vanishes at its interval's left endpoint, per the spec for the missing
bndfun.py), `cumsum()` integrates each piece independently (same interval
partition, first output piece is the unshifted `pcs` of the first input
piece), adds to every piece after the first the right-endpoint value of the
immediately preceding already-shifted piece, and the result is exactly
continuous across every interior junction (each piece's right endvalue
equals the next piece's left endvalue). -/
theorem c4_cumsum_shifts_and_is_continuous (pcs : Bndfun → Bndfun)
    (hI : ∀ g, (pcs g).interval = g.interval)
    (hL : ∀ g, (pcs g).f (pcs g).interval.a = 0) (funs : List Bndfun) :
    ((Chebfun.cumsum pcs funs).map (fun h => h.interval) =
        funs.map fun h => h.interval) ∧
    ((Chebfun.cumsum pcs funs).head? = funs.head?.map pcs) ∧
    (∀ k g h, funs[k + 1]? = some g →
      (Chebfun.cumsum pcs funs)[k]? = some h →
      (Chebfun.cumsum pcs funs)[k + 1]? = some ((pcs g).addConst h.endvalues.2)) ∧
    (Chebfun.cumsum pcs funs).Chain' fun l r => l.endvalues.2 = r.endvalues.1 := by
  refine ⟨cumsumGo_intervals pcs hI none funs, ?_, ?_, cumsumGo_chain pcs hL none funs⟩
  · cases funs with
    | nil => rfl
    | cons g rest => rw [Chebfun.cumsum, cumsumGo_cons]; rfl
  · intro k g h hg hh
    exact cumsumGo_step pcs none funs k g h hg hh

theorem c4_witness :
    (Chebfun.cumsum (fun g => ⟨g.interval, fun x => x - g.interval.a⟩)
        [⟨⟨0, 1⟩, fun _ => 1⟩, ⟨⟨1, 2⟩, fun _ => 1⟩]).Chain'
      (fun l r => l.endvalues.2 = r.endvalues.1) :=
  (c4_cumsum_shifts_and_is_continuous
    (fun g => ⟨g.interval, fun x => x - g.interval.a⟩) (fun _ => rfl)
    (fun _ => sub_self _) [⟨⟨0, 1⟩, fun _ => 1⟩, ⟨⟨1, 2⟩, fun _ => 1⟩]).2.2.2

theorem evalPoint_run (g : Bndfun) (rest : List Bndfun) (ht : Tiling (g :: rest))
    (x : ℚ) :
    Chebfun.evalPoint (g :: rest) x =
      if ((g :: rest).getLast (List.cons_ne_nil g rest)).interval.b < x
      then some (((g :: rest).getLast (List.cons_ne_nil g rest)).f x)
      else if x < g.interval.a then some (g.f x)
      else
        match (((compute_breakdata (g :: rest)).filter fun p =>
            decide (p.1 = x)).getLast?).map Prod.snd with
        | some v => some v
        | none => (((g :: rest).filter fun u =>
            u.interval.isinterior x).getLast?).map fun u => u.f x := by
  have hk_head : ((compute_breakdata (g :: rest)).map Prod.fst).head? =
      some g.interval.a := by
    rw [compute_breakdata_keys _ ht]; rfl
  have hk_last : ((compute_breakdata (g :: rest)).map Prod.fst).getLast? =
      some (((g :: rest).getLast (List.cons_ne_nil g rest)).interval.b) := by
    rw [List.getLast?_map, compute_breakdata_getLast? g rest]; rfl
  have hf_last : (g :: rest).getLast? =
      some ((g :: rest).getLast (List.cons_ne_nil g rest)) :=
    List.getLast?_eq_getLast (g :: rest) (List.cons_ne_nil g rest)
  simp only [Chebfun.evalPoint]
  rw [hk_head, hk_last, hf_last]
  rfl

/-- **C3** — For a validated nonempty piecewise function: a point strictly
inside some piece's interval is evaluated by that owning piece; a point
equal to a breakpoint returns the precomputed breakdata value; a point
strictly left of the first breakpoint is evaluated (extrapolated) by the
first piece and one strictly right of the last breakpoint by the last
piece; and no evaluation point fails (the result is always `some _`). -/
theorem c3_evaluation_routing (g : Bndfun) (rest : List Bndfun)
    (ht : Tiling (g :: rest)) (x : ℚ) :
    (∀ p ∈ g :: rest, p.interval.a < x → x < p.interval.b →
      Chebfun.evalPoint (g :: rest) x = some (p.f x)) ∧
    (∀ v, (x, v) ∈ compute_breakdata (g :: rest) →
      Chebfun.evalPoint (g :: rest) x = some v) ∧
    (x < g.interval.a → Chebfun.evalPoint (g :: rest) x = some (g.f x)) ∧
    (((g :: rest).getLast (List.cons_ne_nil g rest)).interval.b < x →
      Chebfun.evalPoint (g :: rest) x =
        some (((g :: rest).getLast (List.cons_ne_nil g rest)).f x)) ∧
    (Chebfun.evalPoint (g :: rest) x).isSome = true := by
  set gl := (g :: rest).getLast (List.cons_ne_nil g rest) with hgl
  have hrun := evalPoint_run g rest ht x
  have hglmem : gl ∈ g :: rest := List.getLast_mem (List.cons_ne_nil g rest)
  have hbpch : (bpList (g :: rest)).Chain' (· < ·) := bpList_chain' _ ht
  have hbp_head : (bpList (g :: rest)).head? = some g.interval.a := rfl
  have hbp_last : (bpList (g :: rest)).getLast? = some gl.interval.b := by
    rw [← compute_breakdata_keys _ ht, List.getLast?_map,
      compute_breakdata_getLast? g rest]
    rfl
  have hint : ∀ p ∈ g :: rest, p.interval.a < x → x < p.interval.b →
      Chebfun.evalPoint (g :: rest) x = some (p.f x) := by
    intro p hp hp1 hp2
    have hpa : g.interval.a ≤ p.interval.a :=
      chain'_head?_le _ hbpch _ ((mem_bpList _ ht _).mpr ⟨p, hp, Or.inl rfl⟩) _ hbp_head
    have hpb : p.interval.b ≤ gl.interval.b :=
      chain'_le_getLast? _ hbpch _ ((mem_bpList _ ht _).mpr ⟨p, hp, Or.inr rfl⟩) _ hbp_last
    have hxnm : x ∉ bpList (g :: rest) :=
      not_mem_bpList_of_interior _ ht x p hp hp1 hp2
    have hfilterbd : ((compute_breakdata (g :: rest)).filter fun e =>
        decide (e.1 = x)) = [] := by
      rw [List.filter_eq_nil_iff]
      intro e he
      simp only [decide_eq_true_eq]
      intro hex
      apply hxnm
      rw [← compute_breakdata_keys _ ht]
      exact hex ▸ List.mem_map.mpr ⟨e, he, rfl⟩
    rw [hrun, if_neg (not_lt.mpr (by linarith)), if_neg (not_lt.mpr (by linarith)),
      hfilterbd, filter_interior_getLast? _ ht x p hp hp1 hp2]
    rfl
  have hbrk : ∀ v, (x, v) ∈ compute_breakdata (g :: rest) →
      Chebfun.evalPoint (g :: rest) x = some v := by
    intro v hv
    have hxk : x ∈ bpList (g :: rest) := by
      rw [← compute_breakdata_keys _ ht]
      exact List.mem_map.mpr ⟨(x, v), hv, rfl⟩
    have hxa : g.interval.a ≤ x := chain'_head?_le _ hbpch _ hxk _ hbp_head
    have hxb : x ≤ gl.interval.b := chain'_le_getLast? _ hbpch _ hxk _ hbp_last
    have hfil := filter_key_eq_single _ x v (bd_keys_nodup _ ht) hv
    rw [hrun, if_neg (not_lt.mpr hxb), if_neg (not_lt.mpr hxa), hfil]
    rfl
  have hleft : x < g.interval.a →
      Chebfun.evalPoint (g :: rest) x = some (g.f x) := by
    intro hx
    have hab : g.interval.a ≤ gl.interval.b :=
      chain'_le_getLast? _ hbpch _
        ((mem_bpList _ ht _).mpr ⟨g, by simp, Or.inl rfl⟩) _ hbp_last
    rw [hrun, if_neg (not_lt.mpr (by linarith)), if_pos hx]
  have hright : gl.interval.b < x →
      Chebfun.evalPoint (g :: rest) x = some (gl.f x) := by
    intro hx
    rw [hrun, if_pos hx]
  refine ⟨hint, hbrk, hleft, hright, ?_⟩
  by_cases hr : gl.interval.b < x
  · rw [hright hr]; rfl
  · by_cases hl : x < g.interval.a
    · rw [hleft hl]; rfl
    · by_cases hk : x ∈ bpList (g :: rest)
      · have hkm : x ∈ (compute_breakdata (g :: rest)).map Prod.fst := by
          rw [compute_breakdata_keys _ ht]; exact hk
        obtain ⟨e, he, hex⟩ := List.mem_map.mp hkm
        obtain ⟨x', v⟩ := e
        obtain rfl : x' = x := hex
        rw [hbrk v he]; rfl
      · have hga : g.interval.a ∈ bpList (g :: rest) := by
          rw [bpList]; simp
        have hglb : gl.interval.b ∈ bpList (g :: rest) :=
          (mem_bpList _ ht _).mpr ⟨gl, hglmem, Or.inr rfl⟩
        have h1 : g.interval.a < x :=
          lt_of_le_of_ne (not_lt.mp hl) fun heq => hk (heq ▸ hga)
        have h2 : x < gl.interval.b :=
          lt_of_le_of_ne (not_lt.mp hr) fun heq => hk (heq ▸ hglb)
        obtain ⟨p, hp, hp1, hp2⟩ := tiling_exists_interior g rest ht x h1 h2 hk
        rw [hint p hp hp1 hp2]; rfl

theorem c3_witness :
    Chebfun.evalPoint [(⟨⟨0, 1⟩, fun u => u⟩ : Bndfun)] (1/2) = some (1/2) :=
  (c3_evaluation_routing ⟨⟨0, 1⟩, fun u => u⟩ []
      ⟨by intro u hu; simp at hu; subst hu; norm_num, by simp⟩ (1/2)).1
    ⟨⟨0, 1⟩, fun u => u⟩ (by simp) (by norm_num) (by norm_num)

/-- **C6** — For a validated, sorted, gap-free piece array, `breakdata` maps
each breakpoint, in ascending order, to a representative value: the
one-sided piece value at the two domain ends and the average of the left and
right pieces' endpoint values at every interior junction (whose key is the
shared breakpoint, since `(1/2)(b+a) = a = b` there); and the association is
recomputed from the validated piece array by every construction
(`Chebfun.__init__`). -/
theorem c6_breakdata_derived_sorted_averaged (g : Bndfun) (rest funs : List Bndfun)
    (ht : Tiling (g :: rest)) :
    (∀ fs bd, Chebfun.init funs = .ok (fs, bd) → bd = compute_breakdata fs) ∧
    (compute_breakdata (g :: rest)).map Prod.fst = bpList (g :: rest) ∧
    (bpList (g :: rest)).Chain' (· < ·) ∧
    (compute_breakdata (g :: rest)).head? = some (g.interval.a, g.f g.interval.a) ∧
    (∀ k l r, (g :: rest)[k]? = some l → (g :: rest)[k + 1]? = some r →
      (compute_breakdata (g :: rest))[k + 1]? =
        some ((1/2 : ℚ) * (l.interval.b + r.interval.a),
          (1/2 : ℚ) * (l.f l.interval.b + r.f r.interval.a))) ∧
    (compute_breakdata (g :: rest)).getLast? =
      some (((g :: rest).getLast (List.cons_ne_nil g rest)).interval.b,
        ((g :: rest).getLast (List.cons_ne_nil g rest)).f
          ((g :: rest).getLast (List.cons_ne_nil g rest)).interval.b) := by
  refine ⟨?_, compute_breakdata_keys _ ht, bpList_chain' _ ht, ?_,
    fun k l r h1 h2 => compute_breakdata_junction _ k l r h1 h2,
    compute_breakdata_getLast? g rest⟩
  · intro fs bd h
    unfold Chebfun.init at h
    cases hcf : check_funs funs with
    | error e => rw [hcf] at h; cases h
    | ok fs' =>
      rw [hcf] at h
      simp only [Except.map] at h
      obtain ⟨h1, h2⟩ := Prod.mk.inj (Except.ok.inj h)
      rw [← h1, ← h2]
  · obtain ⟨X, hX, -⟩ := compute_breakdata_head g rest
    rw [hX]
    rfl

theorem c6_witness :
    (compute_breakdata [(⟨⟨0, 1⟩, fun x => x⟩ : Bndfun)]).head? = some (0, 0) :=
  (c6_breakdata_derived_sorted_averaged ⟨⟨0, 1⟩, fun x => x⟩ [] []
    ⟨by intro u hu; simp at hu; subst hu; norm_num, by simp⟩).2.2.2.1

/-- **C1** — `check_funs` validates the partition exactly: empty input
passes trivially; after sorting by left endpoint, a negative junction
discrepancy (left endpoint of the right interval minus right endpoint of the
left interval) raises `IntervalOverlap`; otherwise a positive one raises
`IntervalGap`; and exactly tiling pieces (all discrepancies zero) are
accepted as sorted, with the resulting breakpoints (the `breakdata` keys)
equal to the sorted deduplicated union of the pieces' endpoints. -/
theorem c1_partition_validation (funs : List Bndfun)
    (hv : ∀ g ∈ funs, g.interval.a < g.interval.b) :
    (funs = [] → check_funs funs = .ok []) ∧
    ((junctionDiffs (sortByLeft funs)).any (fun x => decide (x < 0)) = true →
      check_funs funs = .error .intervalOverlap) ∧
    ((junctionDiffs (sortByLeft funs)).any (fun x => decide (x < 0)) = false →
      (junctionDiffs (sortByLeft funs)).any (fun x => decide (x > 0)) = true →
      check_funs funs = .error .intervalGap) ∧
    ((∀ d ∈ junctionDiffs (sortByLeft funs), d = 0) → funs ≠ [] →
      check_funs funs = .ok (sortByLeft funs) ∧
      (compute_breakdata (sortByLeft funs)).map Prod.fst =
        sortedDedup ((funs.map fun u => [u.interval.a, u.interval.b]).flatten)) := by
  refine ⟨fun he => by subst he; rfl, ?_, ?_, ?_⟩
  · intro hneg
    cases funs with
    | nil => simp [sortByLeft, junctionDiffs] at hneg
    | cons g t =>
      simp only [check_funs]
      rw [if_pos hneg]
  · intro hneg hpos
    cases funs with
    | nil => simp [sortByLeft, junctionDiffs] at hpos
    | cons g t =>
      simp only [check_funs]
      rw [if_neg (by simp [hneg]), if_pos hpos]
  · intro hz hne
    cases funs with
    | nil => exact absurd rfl hne
    | cons g t =>
      have hneg : (junctionDiffs (sortByLeft (g :: t))).any
          (fun x => decide (x < 0)) = false := by
        rw [List.any_eq_false]
        intro d hd
        simp [hz d hd]
      have hpos : (junctionDiffs (sortByLeft (g :: t))).any
          (fun x => decide (x > 0)) = false := by
        rw [List.any_eq_false]
        intro d hd
        simp [hz d hd]
      have hok : check_funs (g :: t) = .ok (sortByLeft (g :: t)) := by
        simp only [check_funs]
        rw [if_neg (by simp [hneg]), if_neg (by simp [hpos])]
      refine ⟨hok, ?_⟩
      have htil : Tiling (sortByLeft (g :: t)) :=
        ⟨fun u hu => hv u ((sortByLeft_perm (g :: t)).mem_iff.mp hu),
          (junctionDiffs_zero_iff _).mp hz⟩
      rw [compute_breakdata_keys _ htil]
      refine chain'_lt_ext (bpList_chain' _ htil) (chain'_sortedDedup _) ?_
      intro x
      rw [mem_bpList _ htil x, mem_sortedDedup]
      simp only [List.mem_flatten, List.mem_map]
      constructor
      · rintro ⟨u, hu, hor⟩
        refine ⟨[u.interval.a, u.interval.b],
          ⟨u, (sortByLeft_perm (g :: t)).mem_iff.mp hu, rfl⟩, ?_⟩
        rcases hor with rfl | rfl <;> simp
      · rintro ⟨l, ⟨u, hu, rfl⟩, hx⟩
        refine ⟨u, (sortByLeft_perm (g :: t)).mem_iff.mpr hu, ?_⟩
        simpa using hx

theorem c1_witness :
    check_funs [(⟨⟨0, 1⟩, fun x => x⟩ : Bndfun)] =
        .ok (sortByLeft [(⟨⟨0, 1⟩, fun x => x⟩ : Bndfun)]) ∧
      (compute_breakdata (sortByLeft [(⟨⟨0, 1⟩, fun x => x⟩ : Bndfun)])).map Prod.fst =
        sortedDedup (([(⟨⟨0, 1⟩, fun x => x⟩ : Bndfun)].map fun u =>
          [u.interval.a, u.interval.b]).flatten) :=
  (c1_partition_validation [⟨⟨0, 1⟩, fun x => x⟩]
      (by intro u hu; simp at hu; subst hu; norm_num)).2.2.2
    (by simp [sortByLeft, insertByLeft, junctionDiffs]) (by simp)

/-- The dedup rule as the claim states it (compare against the previous
piece's reported roots) disagrees with the code (compare against the
previous piece's retained roots): three pieces on `[-1,0]`, `[0,1/20]`,
`[1/20,1]` reporting roots `0`, `1/20`, `1/20`, with `hscale = 1` and
machine epsilon `1/1000` (so `htol = 1/10`): the middle piece's only root is
suppressed, after which the code keeps the third piece's root, while the
claim's rule would suppress it too. -/
theorem c5_counterexample :
    Chebfun.roots 1 (1/1000) [[0], [1/20], [1/20]] = [0, 1/20] ∧
      rootsDedupClaim (100 * 1 * (1/1000)) [] [[0], [1/20], [1/20]] = [0] ∧
      Chebfun.roots 1 (1/1000) [[0], [1/20], [1/20]] ≠
        rootsDedupClaim (100 * 1 * (1/1000)) [] [[0], [1/20], [1/20]] := by
  refine ⟨?_, ?_, ?_⟩
  · norm_num [Chebfun.roots, rootsRun, abs_le, lt_abs]
  · norm_num [rootsDedupClaim, abs_le, lt_abs]
  · norm_num [Chebfun.roots, rootsRun, rootsDedupClaim, abs_le, lt_abs]

/-- **C5 (amended)** — `roots()` concatenates, left to right, each piece's
reported roots after suppression, where a piece's first reported root is
dropped exactly when the immediately preceding piece's RETAINED roots (after
that piece's own suppression) are nonempty and end within
`100 × hscale × eps` of it; in particular a piecewise function with a
breakpoint placed exactly at a true root (last root of one piece equal to
the first root of the next) reports that root exactly once. -/
theorem c5_roots_retained_dedup (hscale eps : ℚ) (h : 0 ≤ 100 * hscale * eps)
    (pieceRoots : List (List ℚ)) (xs ys : List ℚ) (r : ℚ) :
    Chebfun.roots hscale eps pieceRoots =
      (retainedLists (100 * hscale * eps) [] pieceRoots).flatten ∧
    Chebfun.roots hscale eps [xs ++ [r], r :: ys] = (xs ++ [r]) ++ ys := by
  exact ⟨rootsRun_eq_flatten _ _ _, rootsRun_two_piece _ h xs ys r⟩

theorem c5_witness :
    Chebfun.roots 1 1 [[(0 : ℚ)], [0]] = ([] ++ [(0 : ℚ)]) ++ [] :=
  (c5_roots_retained_dedup 1 1 (by norm_num) [] [] [] 0).2

/-- **C2** — The claimed resample-to-domain behaviour (restrict every piece
to the target subintervals, producing a piecewise function on the target
breakpoints) never happens: `Chebfun.__break` as written raises `TypeError`
on its first statement for every target Domain, here evaluated at a
one-piece function on `[-1,1]` and target breakpoints `[-1,0,1]`. -/
theorem c2_break_always_raises_typeerror :
    Chebfun.breakResample [⟨⟨-1, 1⟩, fun x => x⟩] ⟨[-1, 0, 1]⟩ = .error .typeError :=
  rfl

/-- The claim "a length vector whose size differs from the number of
subintervals raises the mismatched-length error" is false as stated: a
size-1 length vector is broadcast to all subintervals instead (here
`n = [5]` against the two subintervals of `[0,1,2]` succeeds). -/
theorem c7_counterexample :
    [(5 : ℕ)].length ≠ [(0 : ℚ), 1, 2].length - 1 ∧
      initfun_fixedlen_plan [0, 1, 2] [5] = .ok [(⟨0, 1⟩, 5), (⟨1, 2⟩, 5)] := by
  exact ⟨by decide, rfl⟩

/-- **C7 (amended)** — Constructing an `Interval` with `a ≥ b` raises the
degenerate-interval error and succeeds for every `a < b`; constructing a
`Domain` from fewer than two breakpoints or from a sequence with a
non-increasing consecutive pair raises the invalid-domain error; and
constructing a fixed-length piecewise function with a length vector of MORE
THAN ONE element whose size differs from the number of subintervals raises
the mismatched-length error (a size-1 vector is broadcast instead). -/
theorem c7_construction_errors (a b : ℚ) (bs domain : List ℚ) (n : List ℕ) :
    (a ≥ b → Interval.make a b = .error .intervalValues) ∧
    (a < b → Interval.make a b = .ok ⟨a, b⟩) ∧
    (bs.length < 2 → Domain.make bs = .error .invalidDomain) ∧
    (¬ bs.Chain' (· < ·) → Domain.make bs = .error .invalidDomain) ∧
    (2 ≤ domain.length → 1 < n.length → n.length ≠ domain.length - 1 →
      initfun_fixedlen_plan domain n = .error .badFunLengthArgument) := by
  refine ⟨fun h => ?_, fun h => ?_, fun h => ?_, fun h => ?_, fun h1 h2 h3 => ?_⟩
  · rw [Interval.make, if_pos h]
  · rw [Interval.make, if_neg (not_le.mpr h)]
  · rw [Domain.make, if_pos h]
  · rw [Domain.make]
    rcases Nat.lt_or_ge bs.length 2 with hl | hl
    · rw [if_pos hl]
    · rw [if_neg (not_lt.mpr hl)]
      have : ((List.zipWith (fun x y => y - x) bs bs.tail).any
          (fun d => decide (d ≤ 0))) = true := by
        rcases Bool.eq_false_or_eq_true ((List.zipWith (fun x y => y - x) bs bs.tail).any
            (fun d => decide (d ≤ 0))) with hb | hb
        · exact hb
        · exact absurd ((diff_scan_iff_chain' bs).mp hb) h
      rw [if_pos this]
  · rw [initfun_fixedlen_plan, if_neg (not_lt.mpr h1)]
    have hne : ¬ n.length = 1 := by omega
    simp only [if_neg hne, if_pos (And.intro h2 h3)]
    rfl

theorem c7_witness :
    Interval.make 1 1 = .error .intervalValues ∧
      initfun_fixedlen_plan [0, 1] [3, 4] = .error .badFunLengthArgument :=
  ⟨(c7_construction_errors 1 1 [] [] []).1 (le_refl 1),
   (c7_construction_errors 0 0 [] [0, 1] [3, 4]).2.2.2.2
     (by decide) (by decide) (by decide)⟩

theorem c10_witness :
    ∃ m, (⟨[0, 2]⟩ : Domain).merge ⟨[-1, 1]⟩ = .ok m :=
  (c10_merge_total_comm_idem ⟨[0, 2]⟩ ⟨[-1, 1]⟩
    (by norm_num [Domain.Valid, List.chain'_cons])
    (by norm_num [Domain.Valid, List.chain'_cons])).1

end Chebpy
